import Mathlib

/-!
Verification of the simple-sharples menu worker (src/index.ts).

The development shallowly embeds the worker's text pipeline (tag stripping,
HTML-entity decoding, trimming, dietary-marker replacement), the meal
parser, the menu aggregator (filtering, day grouping, the "essies" special
extraction) and the middleware chain (cache-aside and error-boundary
wrappers) as executable Lean functions over `List Char` / `String`.

Strings are processed character by character; the scanning functions mirror
the JavaScript regular-expression semantics of the source (leftmost match,
lazy or greedy as the concrete regex dictates).  Recursive scanners take a
fuel argument equal to the input length so that they are structurally
recursive and kernel-evaluable; fuel never runs out because every step
consumes at least one character per unit of fuel.
-/

/-- Whitespace class used by JavaScript's regex `\s` and by `String.prototype.trim`
(ASCII whitespace plus no-break space; the rarer Unicode space separators,
which never occur in the feed, are omitted from the model). -/
def isWS (c : Char) : Bool :=
  c = ' ' || c = '\t' || c = '\n' || c = '\r' || c = '\u000B' || c = '\u000C' || c = ' '

/-- Fueled scanner for `stripHtmlTags`: the replacement of
`/<\/?[^>]+(>|$)/g` by the empty string.  At a `<` the regex matches when at
least one non-`>` character follows (the optional `/` is itself a non-`>`
character); the greedy `[^>]+` then runs to the next `>` (consumed) or to the
end of the string. A `<` immediately followed by `>`, or final in the string,
matches nothing and survives. -/
def stGo : Nat → List Char → List Char
  | 0, l => l
  | _ + 1, [] => []
  | n + 1, c :: rest =>
    if c = '<' then
      match rest with
      | [] => ['<']
      | c2 :: _ =>
        if c2 = '>' then '<' :: stGo n rest
        else
          match rest.dropWhile (fun x => x != '>') with
          | [] => []
          | _ :: tail => stGo n tail
    else c :: stGo n rest

/-- The worker's `stripHtmlTags`: `s.replace(/<\/?[^>]+(>|$)/g, '')`. -/
def stripHtmlTags (l : List Char) : List Char := stGo l.length l

/-- Model of the `html-entities` collaborator's `decode` on one candidate
entity (the text after a `&`): returns the decoded text and the remaining
input.  Restricted to a representative set of named entities occurring in the
feed; unknown `&...` sequences are left untouched, exactly as the library
leaves unknown entities untouched. -/
def matchEntity (l : List Char) : Option (List Char × List Char) :=
  if ("amp;".data.isPrefixOf l) then some (['&'], l.drop 4)
  else if ("lt;".data.isPrefixOf l) then some (['<'], l.drop 3)
  else if ("gt;".data.isPrefixOf l) then some (['>'], l.drop 3)
  else if ("quot;".data.isPrefixOf l) then some (['"'], l.drop 5)
  else if ("apos;".data.isPrefixOf l) then some ([Char.ofNat 39], l.drop 5)
  else if ("nbsp;".data.isPrefixOf l) then some ([' '], l.drop 5)
  else none

/-- Fueled scanner for entity decoding: replaces each recognized `&entity;`
with its character, copies everything else. -/
def decGo : Nat → List Char → List Char
  | 0, l => l
  | _ + 1, [] => []
  | n + 1, c :: rest =>
    if c = '&' then
      match matchEntity rest with
      | some (d, r) => d ++ decGo n r
      | none => c :: decGo n rest
    else c :: decGo n rest

/-- Model of the `html-entities` collaborator's `decode`. -/
def decode (l : List Char) : List Char := decGo l.length l

/-- JavaScript `String.prototype.trim`: drop leading and trailing whitespace. -/
def trimJS (l : List Char) : List Char :=
  ((l.dropWhile isWS).reverse.dropWhile isWS).reverse

/-- Scanner for the lazy content of a dietary marker: given the text after an
opening `::`, find the first (leftmost) closing `::` and split there.
`none` when no closing `::` exists. -/
def splitColonPair : List Char → Option (List Char × List Char)
  | [] => none
  | c :: rest =>
    if c = ':' ∧ rest.head? = some ':' then some ([], rest.tail)
    else (splitColonPair rest).map (fun p => (c :: p.1, p.2))

/-- The switch over the full matched marker text inside the dietary-marker
replacement callback of `parseMeal`: recognized markers map to their fixed
abbreviation, everything else (the `default` case) to the empty string. -/
def dietarySwitch (full : List Char) : List Char :=
  if full = "::vegan::".data then "(v)".data
  else if full = "::vegetarian::".data then "(vg)".data
  else if full = "::kosher::".data then "(k)".data
  else if full = "::halal::".data then "(h)".data
  else if full = "::gluten-free::".data then "(gf)".data
  else []

/-- Fueled scanner for `.replace(/::(.*?)::/g, ...)`: at an opening `::` the
lazy group runs to the first closing `::`; the full match is fed to
`dietarySwitch` and scanning resumes after the match.  When an opening `::`
has no closing `::` anywhere to its right, no further match can start
anywhere in the remainder (any later opening would need a colon pair inside
that remainder), so the remainder is returned unchanged. -/
def drGo : Nat → List Char → List Char
  | 0, l => l
  | _ + 1, [] => []
  | n + 1, c :: rest =>
    if c = ':' ∧ rest.head? = some ':' then
      match splitColonPair rest.tail with
      | some (k, r) => dietarySwitch (':' :: ':' :: (k ++ [':', ':'])) ++ drGo n r
      | none => c :: rest
    else c :: drGo n rest

/-- The dietary-marker replacement step of `parseMeal`:
`.replace(/::(.*?)::/g, function (dietary) { switch (dietary) ... })`. -/
def dietaryReplace (l : List Char) : List Char := drGo l.length l

/-- The per-item normalization lambda inside `parseMeal`:
`decode(stripHtmlTags(item)).trim().replace(/::(.*?)::/g, ...)`.
Note the order: tags are stripped first, then entities are decoded, then the
result is trimmed, and the dietary-marker replacement runs last (after the
trim). -/
def normalizeText (item : List Char) : List Char :=
  dietaryReplace (trimJS (decode (stripHtmlTags item)))

/-- Matcher for the item delimiter regex of `parseMeal`,
`/<\s*\/?\s*(?:(?:br)|(?:li))\s*\/?\s*>/` (a `<br>`/`<li>` variant,
self-closing or not, whitespace tolerant, lowercase only as in the source):
when the input starts with such a tag, return the remainder after it. -/
def matchBrTag : List Char → Option (List Char)
  | '<' :: rest =>
    let r1 := rest.dropWhile isWS
    let r2 := if r1.head? = some '/' then r1.tail else r1
    let r3 := r2.dropWhile isWS
    let r4? : Option (List Char) :=
      if ['b', 'r'].isPrefixOf r3 then some (r3.drop 2)
      else if ['l', 'i'].isPrefixOf r3 then some (r3.drop 2)
      else none
    match r4? with
    | none => none
    | some r4 =>
      let r5 := r4.dropWhile isWS
      let r6 := if r5.head? = some '/' then r5.tail else r5
      let r7 := r6.dropWhile isWS
      match r7 with
      | '>' :: tail => some tail
      | _ => none
  | _ => none

/-- Fueled splitter for `description.split(/<\s*\/?\s*(?:(?:br)|(?:li))\s*\/?\s*>/)`:
JavaScript `split` semantics (segments between matches; adjacent matches give
empty segments). -/
def splitBrGo : Nat → List Char → List (List Char)
  | 0, l => [l]
  | _ + 1, [] => [[]]
  | n + 1, c :: rest =>
    match matchBrTag (c :: rest) with
    | some r => [] :: splitBrGo n r
    | none =>
      match splitBrGo n rest with
      | [] => [[c]]
      | s :: ss => (c :: s) :: ss

/-- The item split of `parseMeal` ("split on `<br>` and newlines" per the
source comment, though the regex actually recognizes `<br>`/`<li>` tags). -/
def splitBrTags (l : List Char) : List (List Char) := splitBrGo l.length l

/-- Matcher for the bold-tag open marker regex of `parseEssies`,
`/<\s*b\s*>/`. -/
def matchBTag : List Char → Option (List Char)
  | '<' :: rest =>
    let r1 := rest.dropWhile isWS
    match r1 with
    | 'b' :: r2 =>
      let r3 := r2.dropWhile isWS
      match r3 with
      | '>' :: tail => some tail
      | _ => none
    | _ => none
  | _ => none

/-- Fueled splitter for `description.split(/<\s*b\s*>/)` in `parseEssies`. -/
def splitBGo : Nat → List Char → List (List Char)
  | 0, l => [l]
  | _ + 1, [] => [[]]
  | n + 1, c :: rest =>
    match matchBTag (c :: rest) with
    | some r => [] :: splitBGo n r
    | none =>
      match splitBGo n rest with
      | [] => [[c]]
      | s :: ss => (c :: s) :: ss

/-- Split on bold-tag open markers, as in `parseEssies`. -/
def splitBTags (l : List Char) : List (List Char) := splitBGo l.length l

/-- Matcher for a case-insensitive occurrence of the literal `special`
(the regex `/special/i`; ASCII case folding, which covers the feed). -/
def matchSpecialAt (l : List Char) : Option (List Char) :=
  if (l.take 7).map Char.toLower = "special".data then some (l.drop 7) else none

/-- Fueled splitter for `.split(/special/i)` in `parseEssies`. -/
def splitSpecialGo : Nat → List Char → List (List Char)
  | 0, l => [l]
  | _ + 1, [] => [[]]
  | n + 1, c :: rest =>
    match matchSpecialAt (c :: rest) with
    | some r => [] :: splitSpecialGo n r
    | none =>
      match splitSpecialGo n rest with
      | [] => [[c]]
      | s :: ss => (c :: s) :: ss

/-- Split case-insensitively on the literal word `special`, as in `parseEssies`. -/
def splitSpecial (l : List Char) : List (List Char) := splitSpecialGo l.length l

/-- JavaScript `String.prototype.includes` on character lists. -/
def containsSub (needle : List Char) : List Char → Bool
  | [] => needle.isPrefixOf []
  | c :: rest => needle.isPrefixOf (c :: rest) || containsSub needle rest

/-- Model of a luxon `DateTime` (the `luxon` collaborator): either a valid
wall-clock instant in the configured default zone (`America/New_York`; the
feed's timestamps carry no offset, so the wall-clock fields are both parsed
and displayed unchanged and the zone does not affect any formatted output
modeled here), or the library's non-throwing Invalid DateTime. -/
structure LDT where
  valid : Bool
  year : Nat
  month : Nat
  day : Nat
  hour : Nat
  minute : Nat
  second : Nat
deriving DecidableEq, Repr

/-- The luxon Invalid DateTime value. -/
def LDT.invalidDT : LDT := ⟨false, 0, 0, 0, 0, 0, 0⟩

/-- Numeric value of a digit list (most significant first). -/
def digitsToNat (l : List Char) : Nat :=
  l.foldl (fun a c => a * 10 + (c.toNat - 48)) 0

/-- Whether a year is a leap year (proleptic Gregorian, as luxon uses). -/
def isLeap (y : Nat) : Bool :=
  (y % 4 = 0 && y % 100 != 0) || y % 400 = 0

/-- Days in a month, for calendar validation as luxon performs it. -/
def daysInMonth (y m : Nat) : Nat :=
  if m = 2 then (if isLeap y then 29 else 28)
  else if m = 4 || m = 6 || m = 9 || m = 11 then 30
  else 31

/-- Parse the date part `YYYY-MM-DD` of an ISO-8601 timestamp, validating
calendar ranges as luxon does. -/
def parseDatePart : List Char → Option (Nat × Nat × Nat)
  | [y1, y2, y3, y4, '-', m1, m2, '-', d1, d2] =>
    if [y1, y2, y3, y4, m1, m2, d1, d2].all Char.isDigit then
      let y := digitsToNat [y1, y2, y3, y4]
      let m := digitsToNat [m1, m2]
      let d := digitsToNat [d1, d2]
      if 1 ≤ m && m ≤ 12 && 1 ≤ d && d ≤ daysInMonth y m then some (y, m, d)
      else none
    else none
  | _ => none

/-- Parse the time part (after `T`) of an ISO-8601 timestamp: `HH:MM` or
`HH:MM:SS`. -/
def parseTimePart : List Char → Option (Nat × Nat × Nat)
  | [h1, h2, ':', m1, m2] =>
    if [h1, h2, m1, m2].all Char.isDigit then
      let h := digitsToNat [h1, h2]
      let mi := digitsToNat [m1, m2]
      if h ≤ 23 && mi ≤ 59 then some (h, mi, 0) else none
    else none
  | [h1, h2, ':', m1, m2, ':', s1, s2] =>
    if [h1, h2, m1, m2, s1, s2].all Char.isDigit then
      let h := digitsToNat [h1, h2]
      let mi := digitsToNat [m1, m2]
      let s := digitsToNat [s1, s2]
      if h ≤ 23 && mi ≤ 59 && s ≤ 59 then some (h, mi, s) else none
    else none
  | _ => none

/-- Model of luxon `DateTime.fromISO`, restricted to the timestamp shapes the
feed produces (`YYYY-MM-DD`, optionally followed by `THH:MM` or `THH:MM:SS`,
no offset).  Crucially, and faithfully to luxon with its default settings
(`Settings.throwOnInvalid` unset), an unparseable string does NOT throw: it
yields the Invalid DateTime value. -/
def fromISO (s : String) : LDT :=
  let cs := s.data
  match parseDatePart (cs.take 10) with
  | none => LDT.invalidDT
  | some (y, m, d) =>
    match cs.drop 10 with
    | [] => ⟨true, y, m, d, 0, 0, 0⟩
    | 'T' :: t =>
      match parseTimePart t with
      | some (h, mi, se) => ⟨true, y, m, d, h, mi, se⟩
      | none => LDT.invalidDT
    | _ => LDT.invalidDT

/-- Day of week by Zeller's congruence, 0 = Sunday. -/
def dayOfWeek (y m d : Nat) : Nat :=
  let yy := if m < 3 then y - 1 else y
  let mm := if m < 3 then m + 12 else m
  let k := yy % 100
  let j := yy / 100
  (d + (13 * (mm + 1)) / 5 + k + k / 4 + j / 4 + 5 * j + 6) % 7

/-- English abbreviated weekday names as luxon's `ccc` format produces. -/
def weekdayAbbrev (w : Nat) : String :=
  match w with
  | 0 => "Sun" | 1 => "Mon" | 2 => "Tue" | 3 => "Wed"
  | 4 => "Thu" | 5 => "Fri" | _ => "Sat"

/-- Zero-pad a number below 100 to two digits (luxon's `mm`). -/
def pad2 (n : Nat) : String :=
  if n < 10 then "0" ++ toString n else toString n

/-- Model of luxon `toFormat('h:mm')`: 12-hour unpadded hour and zero-padded
minute; on an Invalid DateTime luxon formats the fixed placeholder string
`"Invalid DateTime"`. -/
def formatHmm (dt : LDT) : String :=
  if dt.valid then
    let h12 := if dt.hour % 12 = 0 then 12 else dt.hour % 12
    toString h12 ++ ":" ++ pad2 dt.minute
  else "Invalid DateTime"

/-- Model of luxon `toFormat('ccc M/d')` (abbreviated weekday, unpadded
numeric month/day); `"Invalid DateTime"` on an Invalid DateTime. -/
def formatCccMd (dt : LDT) : String :=
  if dt.valid then
    weekdayAbbrev (dayOfWeek dt.year dt.month dt.day) ++ " "
      ++ toString dt.month ++ "/" ++ toString dt.day
  else "Invalid DateTime"

/-- A raw feed record, as in the source. -/
structure RawMeal where
  title : String
  startdate : String
  enddate : String
  description : String
deriving DecidableEq, Repr

/-- A normalized meal, as in the source. -/
structure Meal where
  title : String
  startdate : LDT
  enddate : LDT
  short_time : String
  short_date : String
  items : List String
deriving DecidableEq, Repr

/-- The worker's `parseMeal`: parse the timestamps (never throwing; invalid
inputs yield Invalid DateTimes whose formatted fields read
`"Invalid DateTime"`), format the short time range and day label, split the
description on `<br>`/`<li>` tags, normalize each segment, and drop falsy
(empty) segments. -/
def parseMeal (meal : RawMeal) : Meal :=
  let startdate := fromISO meal.startdate
  let enddate := fromISO meal.enddate
  { title := meal.title
    startdate := startdate
    enddate := enddate
    short_time := formatHmm startdate ++ " to " ++ formatHmm enddate
    short_date := formatCccMd startdate
    items := (((splitBrTags meal.description.data).map
        (fun item => String.mk (normalizeText item))).filter
        (fun s => s != "")) }

/-- The recognized serving-period titles of `parseAndFilterMeals`. -/
def recognizedTitles : List String := ["Brunch", "Lunch", "Dinner"]

/-- The worker's `parseAndFilterMeals`: parse every record, keep recognized
titles, keep meals with at least one item. -/
def parseAndFilterMeals (rawMeals : List RawMeal) : List Meal :=
  ((rawMeals.map parseMeal).filter
      (fun m => recognizedTitles.contains m.title)).filter
    (fun m => m.items.length > 0)

/-- A day bucket, as in the source: up to one lunch-slot meal (set by Brunch
or Lunch) and up to one dinner-slot meal, keyed by the short day label.
The optional fields structurally enforce at most one meal per slot. -/
structure Day where
  short_date : String
  lunch : Option Meal := none
  dinner : Option Meal := none
deriving DecidableEq, Repr

/-- Lookup in the `days` record of `groupMealsByDay` (a JavaScript object
used as a string-keyed map; keys are unique). -/
def lookupDay : List (String × Day) → String → Option Day
  | [], _ => none
  | (k, d) :: rest, key => if k = key then some d else lookupDay rest key

/-- In-place update of the entry at a key (`days[key].lunch = meal` etc.);
positions of entries are unchanged. -/
def updateAssoc (st : List (String × Day)) (key : String) (f : Day → Day) :
    List (String × Day) :=
  st.map (fun e => if e.1 = key then (e.1, f e.2) else e)

/-- One iteration of the `for (const meal of meals)` loop of
`groupMealsByDay`: create the day bucket if absent (insertion appends the
key, matching JavaScript object insertion order), then assign the meal to
the lunch slot (titles Brunch and Lunch) or the dinner slot (title Dinner);
any other title leaves the fresh bucket's slots untouched. -/
def groupStep (days : List (String × Day)) (m : Meal) : List (String × Day) :=
  let days1 :=
    if (lookupDay days m.short_date).isSome then days
    else days ++ [(m.short_date, { short_date := m.short_date })]
  if m.title = "Brunch" ∨ m.title = "Lunch" then
    updateAssoc days1 m.short_date (fun d => { d with lunch := some m })
  else if m.title = "Dinner" then
    updateAssoc days1 m.short_date (fun d => { d with dinner := some m })
  else days1

/-- Whether a string is a canonical array-index property key in the sense of
ECMAScript own-property ordering (a canonical decimal numeral below
2^32 - 1).  `Object.values` enumerates such keys first, in ascending numeric
order, before all other string keys in insertion order. -/
def isArrayIndexKey (s : String) : Bool :=
  let l := s.data
  !l.isEmpty && l.all Char.isDigit && (l = ['0'] || l.head? != some '0')
    && digitsToNat l < 4294967295

/-- Insert an entry into a list sorted ascending by numeric key value. -/
def insertByNum (e : String × Day) : List (String × Day) → List (String × Day)
  | [] => [e]
  | f :: fs =>
    if digitsToNat e.1.data < digitsToNat f.1.data then e :: f :: fs
    else f :: insertByNum e fs

/-- Sort entries ascending by numeric key value (keys are unique, so
stability is irrelevant). -/
def sortByKeyNum : List (String × Day) → List (String × Day)
  | [] => []
  | e :: es => insertByNum e (sortByKeyNum es)

/-- Model of `Object.values(days)` per ECMAScript own-property ordering:
canonical array-index keys first in ascending numeric order, then the
remaining string keys in insertion order. -/
def jsObjectValues (es : List (String × Day)) : List Day :=
  ((sortByKeyNum (es.filter (fun e => isArrayIndexKey e.1)))
      ++ es.filter (fun e => !isArrayIndexKey e.1)).map Prod.snd

/-- The worker's `groupMealsByDay`. -/
def groupMealsByDay (meals : List Meal) : List Day :=
  jsObjectValues (meals.foldl groupStep [])

/-- The worker's `parseEssies`: from the secondary feed, take the first
record's description, split on bold-tag open markers, select the first
segment containing `special` case-insensitively (absent if none, and the
JavaScript falsiness test also rejects an empty selected segment), decode
it, split case-insensitively on the literal `special`, take the piece
between the first and second occurrences (or to the end; empty when nothing
follows), strip markup and trim. -/
def parseEssies (meals : List RawMeal) : Option String :=
  match meals with
  | [] => none
  | m :: _ =>
    let special? := ((splitBTags m.description.data).filter
        (fun line => containsSub "special".data (line.map Char.toLower))).head?
    match special? with
    | none => none
    | some special =>
      if special.isEmpty then none
      else
        let food := (splitSpecial (decode special)).getD 1 []
        some (String.mk (trimJS (stripHtmlTags food)))

/-- An HTTP response as observable at the worker's surface: status, body and
header list (headers appended in order, as `Headers.append` does). -/
structure Resp where
  status : Nat
  body : String
  headers : List (String × String)
deriving DecidableEq, Repr

/-- An incoming fetch event; `requestUrl` is `event.request.url`.  The cache
key is `new URL(event.request.url).toString()`, i.e. the normalized request
URL; the model identifies it with the URL string (the two requests of the
cache-aside property have identical normalized URLs). -/
structure FetchEvent where
  requestUrl : String
deriving DecidableEq, Repr

/-- A handler, `(event: FetchEvent) => Promise<Response>`: it either
resolves with a response or rejects with a thrown error (modeled as a
message).  The effects a concrete handler performs (upstream fetch, JSON
parsing, meal parsing) are internal to it; only resolution or rejection is
observable to the middleware. -/
def Handler : Type := FetchEvent → Except String Resp

/-- Modelled from the spec: the fixed error page asset `error.html` imported
by the worker (the asset's contents are outside `src/`; only its fixedness
matters to the claims). -/
def errorPage : String := "error page"

/-- The fixed fallback response produced by the error boundary: status 500,
HTML content type, the fixed error page body. -/
def errorResponse : Resp :=
  { status := 500, body := errorPage, headers := [("content-type", "text/html")] }

/-- The worker's `withTry` middleware: invoke the inner handler; on any
rejection, log (elided) and resolve with the fixed 500 error page. -/
def withTry (handler : Handler) : Handler := fun event =>
  match handler event with
  | Except.ok r => Except.ok r
  | Except.error _ => Except.ok errorResponse

/-- The edge cache collaborator (`caches.default`): either a working store
holding entries keyed by normalized URL (entries present are unexpired ones
within their freshness window), or a collaborator whose `match` rejects —
`caches.default.match` returns a promise, and the composition claim ranges
over failures thrown by the cache lookup. -/
inductive Cache where
  | entries : List (String × Resp) → Cache
  | failing : String → Cache
deriving DecidableEq, Repr

/-- Lookup in the cache entry list (first match wins; `put` prepends). -/
def lookupResp : List (String × Resp) → String → Option Resp
  | [], _ => none
  | (k, r) :: rest, key => if k = key then some r else lookupResp rest key

/-- The cache collaborator's `match`: a hit, a miss, or a rejection. -/
def cacheMatch : Cache → String → Except String (Option Resp)
  | Cache.entries es, key => Except.ok (lookupResp es key)
  | Cache.failing e, _ => Except.error e

/-- The cache collaborator's `put` (the stored entry overrides any previous
one for the key; a failing collaborator stays failing). -/
def cachePut : Cache → String → Resp → Cache
  | Cache.entries es, key, r => Cache.entries ((key, r) :: es)
  | Cache.failing e, _, _ => Cache.failing e

/-- Append the freshness directive, `response.headers.append('Cache-Control',
's-maxage=300')`, to the response stored and returned on a cache miss. -/
def attachCacheControl (r : Resp) : Resp :=
  { r with headers := r.headers ++ [("Cache-Control", "s-maxage=300")] }

/-- The worker's `withCache` middleware, with the cache collaborator's state
made explicit: look up the cached response for the normalized request URL
(a rejection of the lookup propagates, as the `await` does); on a hit return
it unchanged; on a miss invoke the inner handler and, only when the status
is exactly 200, attach the freshness directive and store the response (the
fire-and-forget `event.waitUntil(cache.put(...))` store is modeled as the
cache-state component of the result, which is decoupled from the returned
response) before returning it. -/
def withCache (handler : Handler) (event : FetchEvent) (cache : Cache) :
    Except String (Resp × Cache) :=
  match cacheMatch cache event.requestUrl with
  | Except.error e => Except.error e
  | Except.ok (some response) => Except.ok (response, cache)
  | Except.ok none =>
    match handler event with
    | Except.error e => Except.error e
    | Except.ok response =>
      if response.status = 200 then
        let response' := attachCacheControl response
        Except.ok (response', cachePut cache event.requestUrl response')
      else Except.ok (response, cache)

/-- The worker's top-level composition, from the `fetch` listener:
`event.respondWith(withCache(withTry(handleRequest))(event))`.  `withCache`
is the outermost wrapper and `withTry` is inside it.  The orchestrator
`handleRequest` (upstream fetch, JSON decoding, pipeline, render) is the
universally quantified inner handler in the middleware theorems. -/
def composedPipeline (handleRequest : Handler) (event : FetchEvent)
    (cache : Cache) : Except String (Resp × Cache) :=
  withCache (withTry handleRequest) event cache

/-- Whether a title selects the lunch slot in `groupMealsByDay`. -/
def isLunchTitle (t : String) : Bool := t == "Brunch" || t == "Lunch"

/-- Whether a title selects the dinner slot in `groupMealsByDay`. -/
def isDinnerTitle (t : String) : Bool := t == "Dinner"

/-- Specification-side description of the lunch slot: the last meal in
iteration order with the given day label and a lunch-selecting title
(last-write-wins). -/
def lastLunch (meals : List Meal) (k : String) : Option Meal :=
  (meals.filter (fun m => m.short_date == k && isLunchTitle m.title)).getLast?

/-- Specification-side description of the dinner slot: the last meal in
iteration order with the given day label and title Dinner. -/
def lastDinner (meals : List Meal) (k : String) : Option Meal :=
  (meals.filter (fun m => m.short_date == k && isDinnerTitle m.title)).getLast?

/-- Specification-side first-occurrence ordering of day labels. -/
def firstOccur (ks : List String) : List String :=
  ks.foldl (fun acc k => if k ∈ acc then acc else acc ++ [k]) []

/-- A dietary marker `::keyword::` as a character list. -/
def marker (k : List Char) : List Char := ':' :: ':' :: (k ++ [':', ':'])

/-- Claim C2 (counterexample): on the secondary-feed record whose description
is `"<b>Special</b>: Grilled Cheese"`, `parseEssies` does not return
`"Grilled Cheese"`: the text after the case-insensitive `special` is
`"</b>: Grilled Cheese"`, and stripping the `</b>` markup leaves the colon
and space, so the result is `": Grilled Cheese"`. -/
theorem parseEssies_grilled_cheese_counterexample :
    parseEssies [⟨"t", "s", "e", "<b>Special</b>: Grilled Cheese"⟩]
        ≠ some "Grilled Cheese"
      ∧ parseEssies [⟨"t", "s", "e", "<b>Special</b>: Grilled Cheese"⟩]
        = some ": Grilled Cheese" := by
  constructor
  · decide
  · decide

/-- Claim C2 (amended): `parseEssies` returns absent when the secondary feed
has no records; for a first record whose description is
`"<b>Special</b>: Grilled Cheese"` it returns exactly `": Grilled Cheese"`
(markup stripped, entities decoded, trimmed, only text after the first
case-insensitive `special` retained — including the `: ` left over once the
closing bold tag is stripped); and a matched segment whose remainder trims
to the empty string yields the empty string, not absent. -/
theorem parseEssies_amended :
    parseEssies [] = none
      ∧ parseEssies [⟨"t", "s", "e", "<b>Special</b>: Grilled Cheese"⟩]
        = some ": Grilled Cheese"
      ∧ parseEssies [⟨"t", "s", "e", "<b>special"⟩] = some "" := by
  refine ⟨rfl, by decide, by decide⟩

/-- Claim C3 (counterexample): on a `RawMeal` whose `startdate` and `enddate`
are not parseable as ISO-8601, `parseMeal` does not fail hard: no failure
propagates (the function is total), and a `Meal` IS produced from the
record, carrying luxon's fixed `"Invalid DateTime"` placeholder in its
formatted fields and the normally parsed item list. -/
theorem parseMeal_invalid_date_counterexample :
    (fromISO "garbage").valid = false
      ∧ (parseMeal ⟨"Lunch", "garbage", "garbage", "Pizza"⟩).short_date
        = "Invalid DateTime"
      ∧ (parseMeal ⟨"Lunch", "garbage", "garbage", "Pizza"⟩).short_time
        = "Invalid DateTime to Invalid DateTime"
      ∧ (parseMeal ⟨"Lunch", "garbage", "garbage", "Pizza"⟩).items = ["Pizza"] := by
  refine ⟨rfl, by decide, by decide, by decide⟩

/-- Claim C3 (amended): for every `RawMeal` whose `startdate` string is not
parseable, the Meal Parser does not fail and does not propagate anything:
it produces a `Meal` whose parsed start instant is the Invalid DateTime and
whose formatted day label is the fixed placeholder `"Invalid DateTime"`
(silent defaulting, not a hard error). -/
theorem parseMeal_invalid_date_amended (raw : RawMeal)
    (h : (fromISO raw.startdate).valid = false) :
    (parseMeal raw).startdate.valid = false
      ∧ (parseMeal raw).short_date = "Invalid DateTime" := by
  refine ⟨h, ?_⟩
  show formatCccMd (fromISO raw.startdate) = "Invalid DateTime"
  rw [formatCccMd, h]
  simp

/-- Witness for `parseMeal_invalid_date_amended` at a concrete unparseable
record. -/
theorem parseMeal_invalid_date_amended_witness :
    (parseMeal ⟨"Lunch", "garbage", "garbage", "Pizza"⟩).startdate.valid = false
      ∧ (parseMeal ⟨"Lunch", "garbage", "garbage", "Pizza"⟩).short_date
        = "Invalid DateTime" :=
  parseMeal_invalid_date_amended ⟨"Lunch", "garbage", "garbage", "Pizza"⟩ (by decide)

/-- Claim C4 (counterexample): entity decoding runs after tag stripping in
`parseMeal`, so a description containing the encoded tag `&lt;b&gt;` yields
an item containing a raw `<` — the decoded markup survives to the output. -/
theorem parseMeal_markup_counterexample :
    "<b>Pasta" ∈ (parseMeal ⟨"Lunch", "x", "x", "&lt;b&gt;Pasta"⟩).items
      ∧ '<' ∈ "<b>Pasta".data := by
  constructor
  · decide
  · decide

/-- Claim C4 (amended): for every `RawMeal` input, every string in the
returned `Meal.items` is non-empty (the falsiness filter drops exactly the
empty normalized segments).  The markup-freedom half of the original claim
is dropped: because decoding runs after stripping, encoded tags such as
`&lt;b&gt;` are decoded into raw markup in the output, and unknown `&...;`
sequences pass through undecoded. -/
theorem parseMeal_items_nonempty (raw : RawMeal) (s : String)
    (h : s ∈ (parseMeal raw).items) : s ≠ "" := by
  simp only [parseMeal] at h
  have h2 := (List.mem_filter.mp h).2
  simpa using h2

/-- Witness for `parseMeal_items_nonempty` at a concrete record. -/
theorem parseMeal_items_nonempty_witness :
    "Pizza" ≠ "" ∧ "Pizza" ∈ (parseMeal ⟨"Lunch", "x", "x", "Pizza"⟩).items :=
  ⟨parseMeal_items_nonempty ⟨"Lunch", "x", "x", "Pizza"⟩ "Pizza" (by decide),
   by decide⟩

/-- Claim C1 (counterexample): the listener composes
`withCache(withTry(handleRequest))`, so the cache-aside wrapper is outermost
and the error boundary sits inside it.  A failure thrown by the cache lookup
is therefore outside the error boundary: with a cache collaborator whose
`match` rejects, the composed pipeline rejects — the observable result is an
unhandled failure, not a 500 response with the fixed error body. -/
theorem middleware_order_counterexample :
    composedPipeline (fun _ => Except.ok ⟨200, "menu", []⟩) ⟨"https://x/"⟩
        (Cache.failing "cache backend error")
      = Except.error "cache backend error" := rfl

/-- Claim C1 (amended): the wrappers compose with the cache-aside wrapper
outermost and the error boundary inside it.  For every failure thrown inside
`withTry` — that is, anywhere in the orchestrator pipeline: the upstream
fetch, JSON parsing, and meal parsing — the observable response is status
500 with the fixed error page body, the error response is not cached, and
with a working cache collaborator the composed pipeline never rejects.
Failures of the cache lookup itself are outside the boundary (see the
counterexample). -/
theorem middleware_error_boundary_amended (h : Handler) (ev : FetchEvent)
    (es : List (String × Resp)) :
    (∃ p, composedPipeline h ev (Cache.entries es) = Except.ok p)
      ∧ (lookupResp es ev.requestUrl = none → ∀ e, h ev = Except.error e →
          composedPipeline h ev (Cache.entries es)
            = Except.ok (errorResponse, Cache.entries es)) := by
  constructor
  · cases hl : lookupResp es ev.requestUrl with
    | some r =>
      exact ⟨(r, Cache.entries es), by simp [composedPipeline, withCache, cacheMatch, hl]⟩
    | none =>
      cases hh : h ev with
      | error e =>
        refine ⟨(errorResponse, Cache.entries es), ?_⟩
        simp [composedPipeline, withCache, cacheMatch, hl, withTry, hh, errorResponse]
      | ok r =>
        by_cases hs : r.status = 200
        · exact ⟨(attachCacheControl r,
              cachePut (Cache.entries es) ev.requestUrl (attachCacheControl r)),
            by simp [composedPipeline, withCache, cacheMatch, hl, withTry, hh, hs]⟩
        · exact ⟨(r, Cache.entries es),
            by simp [composedPipeline, withCache, cacheMatch, hl, withTry, hh, hs]⟩
  · intro hl e he
    simp [composedPipeline, withCache, cacheMatch, hl, withTry, he, errorResponse]

/-- Witness for `middleware_error_boundary_amended`: a rejecting inner
handler over an empty cache produces the fixed 500 error response. -/
theorem middleware_error_boundary_amended_witness :
    composedPipeline (fun _ => Except.error "boom") ⟨"u"⟩ (Cache.entries [])
      = Except.ok (errorResponse, Cache.entries []) :=
  (middleware_error_boundary_amended (fun _ => Except.error "boom") ⟨"u"⟩ []).2
    rfl "boom" rfl

/-- Claim C10: the cache-aside middleware.  On a hit the cached response is
returned unchanged and the inner handler is not invoked (the result is the
same for every inner handler).  On a miss the inner handler is invoked and
its response is stored — with the freshness directive
`Cache-Control: s-maxage=300` attached — exactly when its status is the
success status 200; the store is the cache-state component of the result,
decoupled from the returned response; a non-200 response is returned
unchanged and not stored.  Hence two requests with identical normalized URLs
within the freshness window (the entry still present) produce byte-identical
bodies, and the second request does not re-invoke the inner handler (its
result is again handler-independent). -/
theorem withCache_spec (h h2 : Handler) (ev : FetchEvent)
    (es : List (String × Resp)) (r : Resp) :
    (lookupResp es ev.requestUrl = some r →
        withCache h ev (Cache.entries es) = Except.ok (r, Cache.entries es)
          ∧ withCache h ev (Cache.entries es) = withCache h2 ev (Cache.entries es))
      ∧ (lookupResp es ev.requestUrl = none → h ev = Except.ok r →
          r.status ≠ 200 →
          withCache h ev (Cache.entries es) = Except.ok (r, Cache.entries es))
      ∧ (lookupResp es ev.requestUrl = none → h ev = Except.ok r →
          r.status = 200 →
          withCache h ev (Cache.entries es)
              = Except.ok (attachCacheControl r,
                  Cache.entries ((ev.requestUrl, attachCacheControl r) :: es))
            ∧ (attachCacheControl r).body = r.body
            ∧ ∀ h3 : Handler,
                withCache h3 ev
                    (Cache.entries ((ev.requestUrl, attachCacheControl r) :: es))
                  = Except.ok (attachCacheControl r,
                      Cache.entries ((ev.requestUrl, attachCacheControl r) :: es))) := by
  refine ⟨?_, ?_, ?_⟩
  · intro hl
    constructor
    · simp [withCache, cacheMatch, hl]
    · simp [withCache, cacheMatch, hl]
  · intro hl hh hs
    simp [withCache, cacheMatch, hl, hh, hs]
  · intro hl hh hs
    refine ⟨?_, rfl, ?_⟩
    · simp [withCache, cacheMatch, hl, hh, hs, cachePut]
    · intro h3
      simp [withCache, cacheMatch, lookupResp]

/-- Witness for `withCache_spec`: a concrete 200 response on an empty cache
is stored with the freshness directive and served unchanged, with the same
body, to the second request regardless of the handler. -/
theorem withCache_spec_witness :
    withCache (fun _ => Except.ok ⟨200, "menu", []⟩) ⟨"u"⟩ (Cache.entries [])
        = Except.ok (attachCacheControl ⟨200, "menu", []⟩,
            Cache.entries [("u", attachCacheControl ⟨200, "menu", []⟩)])
      ∧ (attachCacheControl ⟨200, "menu", []⟩).body = "menu"
      ∧ withCache (fun _ => Except.error "no second invocation") ⟨"u"⟩
          (Cache.entries [("u", attachCacheControl ⟨200, "menu", []⟩)])
        = Except.ok (attachCacheControl ⟨200, "menu", []⟩,
            Cache.entries [("u", attachCacheControl ⟨200, "menu", []⟩)]) := by
  have s := withCache_spec (fun _ => Except.ok ⟨200, "menu", []⟩)
    (fun _ => Except.error "no second invocation") ⟨"u"⟩ [] ⟨200, "menu", []⟩
  have t := s.2.2 rfl rfl rfl
  exact ⟨t.1, t.2.1, t.2.2 (fun _ => Except.error "no second invocation")⟩

/-- Claim C8: `parseAndFilterMeals` parses every record and returns exactly
the parsed meals whose title is in the recognized set {Brunch, Lunch,
Dinner} and whose item list is non-empty, preserving relative input order
(the result is a sublist of the parsed list); every meal with an
unrecognized title or zero items is dropped. -/
theorem parseAndFilterMeals_spec (rawMeals : List RawMeal) :
    parseAndFilterMeals rawMeals
        = (rawMeals.map parseMeal).filter
            (fun m => recognizedTitles.contains m.title && m.items.length > 0)
      ∧ (parseAndFilterMeals rawMeals).Sublist (rawMeals.map parseMeal)
      ∧ ∀ m, m ∈ parseAndFilterMeals rawMeals
          ↔ m ∈ rawMeals.map parseMeal ∧ m.title ∈ recognizedTitles
              ∧ m.items ≠ [] := by
  refine ⟨?_, ?_, ?_⟩
  · simp [parseAndFilterMeals, List.filter_filter, Bool.and_comm]
  · exact ((List.filter_sublist _).trans (List.filter_sublist _))
  · intro m
    simp [parseAndFilterMeals, List.mem_filter, List.length_pos]
    tauto

/-- Tag stripping is the identity on text containing no `<`. -/
theorem stGo_no_lt (n : Nat) : ∀ l : List Char, '<' ∉ l → stGo n l = l := by
  induction n with
  | zero => intro l _; rfl
  | succ n ih =>
    intro l hl
    cases l with
    | nil => rfl
    | cons c rest =>
      have hc : ¬(c = '<') := fun h => hl (h ▸ List.mem_cons_self c rest)
      have hr : '<' ∉ rest := fun h => hl (List.mem_cons_of_mem c h)
      simp [stGo, hc, ih rest hr]

/-- Entity decoding is the identity on text containing no `&`. -/
theorem decGo_no_amp (n : Nat) : ∀ l : List Char, '&' ∉ l → decGo n l = l := by
  induction n with
  | zero => intro l _; rfl
  | succ n ih =>
    intro l hl
    cases l with
    | nil => rfl
    | cons c rest =>
      have hc : ¬(c = '&') := fun h => hl (h ▸ List.mem_cons_self c rest)
      have hr : '&' ∉ rest := fun h => hl (List.mem_cons_of_mem c h)
      simp [decGo, hc, ih rest hr]

/-- Dietary-marker replacement is the identity on text containing no colon. -/
theorem drGo_no_colon (n : Nat) : ∀ l : List Char, ':' ∉ l → drGo n l = l := by
  induction n with
  | zero => intro l _; rfl
  | succ n ih =>
    intro l hl
    cases l with
    | nil => rfl
    | cons c rest =>
      have hc : ¬(c = ':') := fun h => hl (h ▸ List.mem_cons_self c rest)
      have hr : ':' ∉ rest := fun h => hl (List.mem_cons_of_mem c h)
      simp [drGo, hc, ih rest hr]

/-- Every character of the trimmed text occurs in the original text. -/
theorem mem_of_mem_trimJS {a : Char} {l : List Char} (ha : a ∈ trimJS l) :
    a ∈ l := by
  rw [trimJS, List.mem_reverse] at ha
  have h1 : a ∈ (l.dropWhile isWS).reverse := (List.dropWhile_sublist _).subset ha
  rw [List.mem_reverse] at h1
  exact (List.dropWhile_sublist _).subset h1

/-- The JavaScript trim in terms of Mathlib's right-drop. -/
theorem trimJS_eq (l : List Char) :
    trimJS l = List.rdropWhile isWS (l.dropWhile isWS) := rfl

/-- Trimming is idempotent. -/
theorem trimJS_idempotent (l : List Char) : trimJS (trimJS l) = trimJS l := by
  rw [trimJS_eq l, trimJS_eq]
  set d := l.dropWhile isWS with hd
  have hdself : d.dropWhile isWS = d := by
    rw [hd]; exact List.dropWhile_idempotent _ _
  have hpre : (List.rdropWhile isWS d) <+: d := List.rdropWhile_prefix _ _
  have hstep1 : (List.rdropWhile isWS d).dropWhile isWS = List.rdropWhile isWS d := by
    cases ht : List.rdropWhile isWS d with
    | nil => simp
    | cons c ts =>
      obtain ⟨s, hs⟩ := hpre
      rw [ht] at hs
      have hc : isWS c = false := by
        by_contra hcc
        have hcc' : isWS c = true := by
          cases hb : isWS c
          · exact absurd hb hcc
          · rfl
        have heq : d.dropWhile isWS = (ts ++ s).dropWhile isWS := by
          rw [← hs]
          simp [List.dropWhile_cons, hcc']
        rw [hdself] at heq
        have hlen := congrArg List.length heq
        have h2 : ((ts ++ s).dropWhile isWS).length ≤ (ts ++ s).length :=
          (List.dropWhile_sublist _).length_le
        rw [← hs] at hlen
        simp only [List.cons_append, List.length_cons, List.length_append] at hlen h2
        omega
      simp [List.dropWhile_cons, hc]
  rw [hstep1]
  exact List.rdropWhile_idempotent _ _

/-- Claim C5 (counterexample): the Text Normalizer is not idempotent.
Entity decoding runs once per pass, so `&amp;amp;` normalizes to `&amp;`,
and re-normalizing that already-normalized string decodes it further to
`&`. -/
theorem normalizeText_not_idempotent :
    normalizeText (normalizeText "&amp;amp;".data)
        ≠ normalizeText "&amp;amp;".data
      ∧ normalizeText "&amp;amp;".data = "&amp;".data
      ∧ normalizeText "&amp;".data = "&".data := by
  refine ⟨by decide, by decide, by decide⟩

/-- Claim C5 (amended): the Text Normalizer is idempotent on text free of
the three trigger characters — no `&` (so entity decoding cannot decode
further), no `<` (so tag stripping is settled) and no `:` (so no dietary
marker can match): on such text one pass reduces to trimming, and trimming
is idempotent.  On general text idempotence fails (see the
counterexample). -/
theorem normalizeText_idempotent_plain (s : List Char)
    (h1 : '&' ∉ s) (h2 : '<' ∉ s) (h3 : ':' ∉ s) :
    normalizeText (normalizeText s) = normalizeText s := by
  have key : ∀ t : List Char, '&' ∉ t → '<' ∉ t → ':' ∉ t →
      normalizeText t = trimJS t := by
    intro t ha hb hc
    have hcolon : ':' ∉ trimJS t := fun hx => hc (mem_of_mem_trimJS hx)
    rw [normalizeText]
    rw [show stripHtmlTags t = t from stGo_no_lt _ t hb]
    rw [show decode t = t from decGo_no_amp _ t ha]
    rw [show dietaryReplace (trimJS t) = trimJS t from drGo_no_colon _ _ hcolon]
  have hN : normalizeText s = trimJS s := key s h1 h2 h3
  rw [hN]
  have h1' : '&' ∉ trimJS s := fun hx => h1 (mem_of_mem_trimJS hx)
  have h2' : '<' ∉ trimJS s := fun hx => h2 (mem_of_mem_trimJS hx)
  have h3' : ':' ∉ trimJS s := fun hx => h3 (mem_of_mem_trimJS hx)
  rw [key _ h1' h2' h3']
  exact trimJS_idempotent s

/-- Witness for `normalizeText_idempotent_plain` on plain text. -/
theorem normalizeText_idempotent_plain_witness :
    normalizeText (normalizeText " tomato soup ".data)
      = normalizeText " tomato soup ".data :=
  normalizeText_idempotent_plain " tomato soup ".data
    (by decide) (by decide) (by decide)

/-- The remainder returned by the colon-pair scan is no longer than its
input. -/
theorem splitColonPair_len (l : List Char) :
    ∀ k r, splitColonPair l = some (k, r) → r.length ≤ l.length := by
  induction l with
  | nil => intro k r h; exact Option.noConfusion h
  | cons c rest ih =>
    intro k r h
    by_cases hc : c = ':' ∧ rest.head? = some ':'
    · rw [splitColonPair, if_pos hc] at h
      have hr : r = rest.tail := by
        cases h; rfl
      subst hr
      calc rest.tail.length ≤ rest.length := by
            cases rest <;> simp
        _ ≤ (c :: rest).length := by simp
    · rw [splitColonPair, if_neg hc] at h
      cases hsp : splitColonPair rest with
      | none => rw [hsp] at h; simp at h
      | some p =>
        rw [hsp] at h
        have h2 : (c :: p.1, p.2) = (k, r) := by simpa using h
        have hr : r = p.2 := by
          have h3 := congrArg Prod.snd h2
          simpa using h3.symm
        subst hr
        have := ih p.1 p.2 hsp
        simp only [List.length_cons]
        omega

/-- When the content contains no colon, the colon-pair scan finds exactly
the closing pair after it. -/
theorem splitColonPair_no_colon (k b : List Char) (hk : ':' ∉ k) :
    splitColonPair (k ++ ':' :: ':' :: b) = some (k, b) := by
  induction k with
  | nil => simp [splitColonPair]
  | cons c k' ih =>
    have hc : ¬(c = ':') := fun h => hk (h ▸ List.mem_cons_self c k')
    have hk' : ':' ∉ k' := fun h => hk (List.mem_cons_of_mem c h)
    have hcond : ¬(c = ':' ∧ ((k' ++ ':' :: ':' :: b).head? = some ':')) :=
      fun h => hc h.1
    rw [List.cons_append, splitColonPair, if_neg hcond, ih hk']
    rfl

/-- The dietary-replacement scan does not depend on the fuel, provided the
fuel is at least the input length. -/
theorem drGo_fuel (n : Nat) : ∀ (m : Nat) (l : List Char),
    l.length ≤ n → l.length ≤ m → drGo n l = drGo m l := by
  induction n with
  | zero =>
    intro m l h1 _
    have : l = [] := List.length_eq_zero.mp (Nat.le_zero.mp h1)
    subst this
    cases m <;> rfl
  | succ n ih =>
    intro m l h1 h2
    cases l with
    | nil => cases m <;> rfl
    | cons c rest =>
      cases m with
      | zero => simp at h2
      | succ m' =>
        simp only [List.length_cons, Nat.succ_le_succ_iff] at h1 h2
        by_cases hc : c = ':' ∧ rest.head? = some ':'
        · rw [drGo, drGo, if_pos hc, if_pos hc]
          cases hsp : splitColonPair rest.tail with
          | none => rfl
          | some p =>
            obtain ⟨k, r⟩ := p
            have hr : r.length ≤ rest.tail.length := splitColonPair_len _ k r hsp
            have htail : rest.tail.length ≤ rest.length := by cases rest <;> simp
            exact congrArg
              (fun x => dietarySwitch (':' :: ':' :: (k ++ [':', ':'])) ++ x)
              (ih m' r (by omega) (by omega))
        · rw [drGo, drGo, if_neg hc, if_neg hc, ih m' rest h1 h2]

/-- The dietary replacement copies a non-colon character and continues. -/
theorem dietaryReplace_cons (c : Char) (l : List Char) (hc : c ≠ ':') :
    dietaryReplace (c :: l) = c :: dietaryReplace l := by
  have hcond : ¬(c = ':' ∧ l.head? = some ':') := fun h => hc h.1
  rw [dietaryReplace, dietaryReplace, List.length_cons, drGo, if_neg hcond]

/-- The dietary replacement at a marker: the full marker is replaced by its
switch value and scanning resumes after it. -/
theorem dietaryReplace_marker (k b : List Char) (hk : ':' ∉ k) :
    dietaryReplace (marker k ++ b)
      = dietarySwitch (marker k) ++ dietaryReplace b := by
  have hl : marker k ++ b = ':' :: ':' :: (k ++ ':' :: ':' :: b) := by
    simp [marker]
  rw [hl]
  have hcond : (':' : Char) = ':' ∧ ((':' :: (k ++ ':' :: ':' :: b)).head? = some ':') := by
    exact ⟨rfl, rfl⟩
  rw [dietaryReplace, List.length_cons, drGo, if_pos hcond]
  have htail : (':' :: (k ++ ':' :: ':' :: b)).tail = k ++ ':' :: ':' :: b := rfl
  rw [htail, splitColonPair_no_colon k b hk]
  have hfuel : drGo (':' :: (k ++ ':' :: ':' :: b)).length b = dietaryReplace b := by
    rw [dietaryReplace]
    exact drGo_fuel _ _ _ (by simp [List.length_append]; omega) (le_refl _)
  exact congrArg (fun x => dietarySwitch (marker k) ++ x) hfuel

/-- Claim C6 (counterexample): trimming happens before the dietary-marker
replacement, so a collapsing marker at the edge of a segment leaves behind
whitespace: the normalized form of `"Pasta ::unknown::"` is `"Pasta "`,
which has trailing whitespace. -/
theorem normalizeText_trailing_ws_counterexample :
    normalizeText "Pasta ::unknown::".data = "Pasta ".data
      ∧ trimJS (normalizeText "Pasta ::unknown::".data)
        ≠ normalizeText "Pasta ::unknown::".data := by
  refine ⟨by decide, by decide⟩

/-- Claim C6 (amended): the normalizer replaces each dietary marker of the
exact form `::keyword::` according to the fixed table — for every context
`a`/`b` around a marker (with no colons in the preceding text or the
keyword, so the marker is the leftmost match), the marker alone is rewritten
to its switch value — with `vegan` mapping to `(v)`, `vegetarian` to `(vg)`,
`kosher` to `(k)`, `halal` to `(h)`, `gluten-free` to `(gf)`, and every
unrecognized keyword collapsing to the empty string.  However, the trim runs
before this replacement, so the final result can retain leading or trailing
whitespace exposed by a collapsed edge marker (see the counterexample). -/
theorem dietary_marker_table_amended :
    (∀ a k b : List Char, ':' ∉ a → ':' ∉ k →
        dietaryReplace (a ++ marker k ++ b)
          = a ++ dietarySwitch (marker k) ++ dietaryReplace b)
      ∧ dietarySwitch (marker "vegan".data) = "(v)".data
      ∧ dietarySwitch (marker "vegetarian".data) = "(vg)".data
      ∧ dietarySwitch (marker "kosher".data) = "(k)".data
      ∧ dietarySwitch (marker "halal".data) = "(h)".data
      ∧ dietarySwitch (marker "gluten-free".data) = "(gf)".data
      ∧ (∀ full : List Char, full ≠ "::vegan::".data →
          full ≠ "::vegetarian::".data → full ≠ "::kosher::".data →
          full ≠ "::halal::".data → full ≠ "::gluten-free::".data →
          dietarySwitch full = []) := by
  refine ⟨?_, by decide, by decide, by decide, by decide, by decide, ?_⟩
  · intro a k b ha hk
    induction a with
    | nil => simpa using dietaryReplace_marker k b hk
    | cons c a' ih =>
      have hc : c ≠ ':' := fun h => ha (h ▸ List.mem_cons_self c a')
      have ha' : ':' ∉ a' := fun h => ha (List.mem_cons_of_mem c h)
      have hstep : (c :: a') ++ marker k ++ b = c :: (a' ++ marker k ++ b) := by
        simp
      rw [hstep, dietaryReplace_cons c _ hc, ih ha']
      simp
  · intro full h1 h2 h3 h4 h5
    simp [dietarySwitch, h1, h2, h3, h4, h5]

/-- Witness for `dietary_marker_table_amended`: a recognized marker embedded
in colon-free context rewrites to its abbreviation in place. -/
theorem dietary_marker_table_amended_witness :
    dietaryReplace ("Salad ".data ++ marker "vegan".data ++ " bar".data)
      = "Salad ".data ++ dietarySwitch (marker "vegan".data)
          ++ dietaryReplace " bar".data :=
  dietary_marker_table_amended.1 "Salad ".data "vegan".data " bar".data
    (by decide) (by decide)

/-- The day-record lookup succeeds exactly for present keys. -/
theorem lookupDay_isSome (st : List (String × Day)) (k : String) :
    (lookupDay st k).isSome = true ↔ k ∈ st.map Prod.fst := by
  induction st with
  | nil => simp [lookupDay]
  | cons e rest ih =>
    by_cases h : e.1 = k
    · simp [lookupDay, h]
    · simp [lookupDay, h, ih, Ne.symm h]

/-- Updating an entry in place does not change the key sequence. -/
theorem updateAssoc_keys (st : List (String × Day)) (k : String) (f : Day → Day) :
    (updateAssoc st k f).map Prod.fst = st.map Prod.fst := by
  rw [updateAssoc, List.map_map]
  apply List.map_congr_left
  intro e _
  by_cases h : e.1 = k <;> simp [h]

/-- Membership in an updated record comes from membership in the original. -/
theorem mem_updateAssoc {st : List (String × Day)} {k : String} {f : Day → Day}
    {e' : String × Day} (he : e' ∈ updateAssoc st k f) :
    ∃ e ∈ st, e' = if e.1 = k then (e.1, f e.2) else e := by
  rw [updateAssoc] at he
  obtain ⟨e, hmem, heq⟩ := List.mem_map.mp he
  exact ⟨e, hmem, heq.symm⟩

/-- First-occurrence order of an extended sequence. -/
theorem firstOccur_append (xs : List String) (x : String) :
    firstOccur (xs ++ [x])
      = if x ∈ firstOccur xs then firstOccur xs else firstOccur xs ++ [x] := by
  rw [firstOccur, firstOccur, List.foldl_append]
  rfl

/-- First-occurrence order preserves membership. -/
theorem mem_firstOccur (x : String) (l : List String) :
    x ∈ firstOccur l ↔ x ∈ l := by
  have general : ∀ acc : List String,
      x ∈ l.foldl (fun acc k => if k ∈ acc then acc else acc ++ [k]) acc
        ↔ x ∈ acc ∨ x ∈ l := by
    induction l with
    | nil => intro acc; simp
    | cons k rest ih =>
      intro acc
      rw [List.foldl_cons, ih]
      by_cases h : k ∈ acc
      · simp only [if_pos h, List.mem_cons]
        constructor
        · rintro (ha | hr)
          · exact Or.inl ha
          · exact Or.inr (Or.inr hr)
        · rintro (ha | (hx | hr))
          · exact Or.inl ha
          · exact Or.inl (hx ▸ h)
          · exact Or.inr hr
      · simp only [if_neg h, List.mem_append, List.mem_singleton, List.mem_cons]
        tauto
  rw [firstOccur, general]
  simp

/-- Appending a meal extends the last-write-wins lunch slot description. -/
theorem lastLunch_append (ms : List Meal) (m : Meal) (k : String) :
    lastLunch (ms ++ [m]) k
      = if m.short_date == k && isLunchTitle m.title then some m
        else lastLunch ms k := by
  rw [lastLunch, List.filter_append]
  by_cases h : (m.short_date == k && isLunchTitle m.title) = true
  · simp [h, List.getLast?_concat]
  · simp [h, lastLunch]

/-- Appending a meal extends the last-write-wins dinner slot description. -/
theorem lastDinner_append (ms : List Meal) (m : Meal) (k : String) :
    lastDinner (ms ++ [m]) k
      = if m.short_date == k && isDinnerTitle m.title then some m
        else lastDinner ms k := by
  rw [lastDinner, List.filter_append]
  by_cases h : (m.short_date == k && isDinnerTitle m.title) = true
  · simp [h, List.getLast?_concat]
  · simp [h, lastDinner]

/-- A day label never seen in the meal list has no lunch slot value. -/
theorem lastLunch_fresh (ms : List Meal) (k : String)
    (h : ∀ x ∈ ms, x.short_date ≠ k) : lastLunch ms k = none := by
  rw [lastLunch]
  have : ms.filter (fun m => m.short_date == k && isLunchTitle m.title) = [] := by
    apply List.filter_eq_nil_iff.mpr
    intro a ha
    simp [h a ha]
  rw [this]
  rfl

/-- A day label never seen in the meal list has no dinner slot value. -/
theorem lastDinner_fresh (ms : List Meal) (k : String)
    (h : ∀ x ∈ ms, x.short_date ≠ k) : lastDinner ms k = none := by
  rw [lastDinner]
  have : ms.filter (fun m => m.short_date == k && isDinnerTitle m.title) = [] := by
    apply List.filter_eq_nil_iff.mpr
    intro a ha
    simp [h a ha]
  rw [this]
  rfl

/-- One grouping step appends the meal's day label to the key sequence when
new and leaves the key sequence unchanged otherwise. -/
theorem groupStep_keys (S : List (String × Day)) (m : Meal) :
    (groupStep S m).map Prod.fst
      = if m.short_date ∈ S.map Prod.fst then S.map Prod.fst
        else S.map Prod.fst ++ [m.short_date] := by
  simp only [groupStep]
  by_cases hlk : (lookupDay S m.short_date).isSome = true
  · have hmem := (lookupDay_isSome S m.short_date).mp hlk
    rw [if_pos hlk, if_pos hmem]
    by_cases ht1 : m.title = "Brunch" ∨ m.title = "Lunch"
    · rw [if_pos ht1, updateAssoc_keys]
    · by_cases ht2 : m.title = "Dinner"
      · rw [if_neg ht1, if_pos ht2, updateAssoc_keys]
      · rw [if_neg ht1, if_neg ht2]
  · have hmem : m.short_date ∉ S.map Prod.fst :=
      fun hc => hlk ((lookupDay_isSome S m.short_date).mpr hc)
    rw [if_neg hlk, if_neg hmem]
    by_cases ht1 : m.title = "Brunch" ∨ m.title = "Lunch"
    · rw [if_pos ht1, updateAssoc_keys]
      simp
    · by_cases ht2 : m.title = "Dinner"
      · rw [if_neg ht1, if_pos ht2, updateAssoc_keys]
        simp
      · rw [if_neg ht1, if_neg ht2]
        simp

/-- One grouping step preserves the per-entry slot description: after
processing one more meal, each stored day still records, for its label, the
last lunch-selecting meal and the last dinner meal seen so far. -/
theorem groupStep_entries (ms : List Meal) (m : Meal) (S : List (String × Day))
    (hkeys : S.map Prod.fst = firstOccur (ms.map (fun x => x.short_date)))
    (hent : ∀ e ∈ S, e.2.short_date = e.1 ∧ e.2.lunch = lastLunch ms e.1
        ∧ e.2.dinner = lastDinner ms e.1) :
    ∀ e ∈ groupStep S m, e.2.short_date = e.1
        ∧ e.2.lunch = lastLunch (ms ++ [m]) e.1
        ∧ e.2.dinner = lastDinner (ms ++ [m]) e.1 := by
  have main : ∀ D : List (String × Day),
      (∀ e ∈ D, e.2.short_date = e.1 ∧ e.2.lunch = lastLunch ms e.1
        ∧ e.2.dinner = lastDinner ms e.1) →
      ∀ e' ∈ (if m.title = "Brunch" ∨ m.title = "Lunch" then
          updateAssoc D m.short_date (fun d => { d with lunch := some m })
        else if m.title = "Dinner" then
          updateAssoc D m.short_date (fun d => { d with dinner := some m })
        else D),
      e'.2.short_date = e'.1 ∧ e'.2.lunch = lastLunch (ms ++ [m]) e'.1
        ∧ e'.2.dinner = lastDinner (ms ++ [m]) e'.1 := by
    intro D hD e' he'
    by_cases ht1 : m.title = "Brunch" ∨ m.title = "Lunch"
    · rw [if_pos ht1] at he'
      obtain ⟨e, hmem, heq⟩ := mem_updateAssoc he'
      obtain ⟨hsd, hlu, hdi⟩ := hD e hmem
      have hlt : isLunchTitle m.title = true := by
        rcases ht1 with h | h <;> simp [isLunchTitle, h]
      have hdt : isDinnerTitle m.title = false := by
        rcases ht1 with h | h <;> simp [isDinnerTitle, h]
      by_cases hek : e.1 = m.short_date
      · rw [if_pos hek] at heq
        subst heq
        refine ⟨hsd, ?_, ?_⟩
        · simp [lastLunch_append, hek, hlt]
        · simp [lastDinner_append, hdt, hdi]
      · rw [if_neg hek] at heq
        subst heq
        have hne : ¬ m.short_date = e'.1 := fun hcc => hek hcc.symm
        refine ⟨hsd, ?_, ?_⟩
        · simp [lastLunch_append, hne, hlu]
        · simp [lastDinner_append, hne, hdi]
    · by_cases ht2 : m.title = "Dinner"
      · rw [if_neg ht1, if_pos ht2] at he'
        obtain ⟨e, hmem, heq⟩ := mem_updateAssoc he'
        obtain ⟨hsd, hlu, hdi⟩ := hD e hmem
        have hlt : isLunchTitle m.title = false := by
          simp only [isLunchTitle, ht2]
          decide
        have hdt : isDinnerTitle m.title = true := by
          simp [isDinnerTitle, ht2]
        by_cases hek : e.1 = m.short_date
        · rw [if_pos hek] at heq
          subst heq
          refine ⟨hsd, ?_, ?_⟩
          · simp [lastLunch_append, hlt, hlu]
          · simp [lastDinner_append, hek, hdt]
        · rw [if_neg hek] at heq
          subst heq
          have hne : ¬ m.short_date = e'.1 := fun hcc => hek hcc.symm
          refine ⟨hsd, ?_, ?_⟩
          · simp [lastLunch_append, hne, hlu]
          · simp [lastDinner_append, hne, hdi]
      · rw [if_neg ht1, if_neg ht2] at he'
        obtain ⟨hsd, hlu, hdi⟩ := hD e' he'
        have h1 : m.title ≠ "Brunch" := fun h => ht1 (Or.inl h)
        have h2 : m.title ≠ "Lunch" := fun h => ht1 (Or.inr h)
        have hlt : isLunchTitle m.title = false := by
          simp only [isLunchTitle, Bool.or_eq_false_iff, beq_eq_false_iff_ne]
          exact ⟨h1, h2⟩
        have hdt : isDinnerTitle m.title = false := by
          simp only [isDinnerTitle, beq_eq_false_iff_ne]
          exact ht2
        refine ⟨hsd, ?_, ?_⟩
        · simp [lastLunch_append, hlt, hlu]
        · simp [lastDinner_append, hdt, hdi]
  intro e' he'
  simp only [groupStep] at he'
  by_cases hlk : (lookupDay S m.short_date).isSome = true
  · rw [if_pos hlk] at he'
    exact main S hent e' he'
  · rw [if_neg hlk] at he'
    have hfr : ∀ x ∈ ms, x.short_date ≠ m.short_date := by
      intro x hx heq
      have hmem : m.short_date ∈ S.map Prod.fst := by
        rw [hkeys, mem_firstOccur]
        exact List.mem_map.mpr ⟨x, hx, heq⟩
      exact absurd ((lookupDay_isSome S m.short_date).mpr hmem) (by simp [hlk])
    refine main (S ++ [(m.short_date, { short_date := m.short_date })]) ?_ e' he'
    intro e he
    rcases List.mem_append.mp he with h1 | h2
    · exact hent e h1
    · have he2 : e = (m.short_date, { short_date := m.short_date }) := by
        simpa using h2
      subst he2
      exact ⟨rfl, by simp [lastLunch_fresh ms _ hfr],
        by simp [lastDinner_fresh ms _ hfr]⟩

/-- The grouping fold invariant: the accumulated day record lists the day
labels in first-occurrence order, and each entry records the last
lunch-selecting and last dinner meal for its label. -/
theorem groupFold_inv (meals : List Meal) :
    (meals.foldl groupStep []).map Prod.fst
        = firstOccur (meals.map (fun m => m.short_date))
      ∧ ∀ e ∈ meals.foldl groupStep [], e.2.short_date = e.1
          ∧ e.2.lunch = lastLunch meals e.1
          ∧ e.2.dinner = lastDinner meals e.1 := by
  induction meals using List.reverseRecOn with
  | nil =>
    refine ⟨rfl, ?_⟩
    intro e he
    simp at he
  | append_singleton ms m ih =>
    obtain ⟨ihk, ihe⟩ := ih
    have hfold : (ms ++ [m]).foldl groupStep []
        = groupStep (ms.foldl groupStep []) m := by
      rw [List.foldl_append]
      rfl
    rw [hfold]
    constructor
    · rw [groupStep_keys, ihk]
      simp only [List.map_append, List.map_cons, List.map_nil, firstOccur_append]
    · exact groupStep_entries ms m _ ihk ihe

/-- Membership through numeric insertion. -/
theorem mem_insertByNum (x e : String × Day) (l : List (String × Day)) :
    x ∈ insertByNum e l ↔ x = e ∨ x ∈ l := by
  induction l with
  | nil => simp [insertByNum]
  | cons f fs ih =>
    by_cases h : digitsToNat e.1.data < digitsToNat f.1.data
    · simp [insertByNum, h]
    · simp only [insertByNum, if_neg h, List.mem_cons, ih]
      tauto

/-- Membership through the numeric sort. -/
theorem mem_sortByKeyNum (x : String × Day) (l : List (String × Day)) :
    x ∈ sortByKeyNum l ↔ x ∈ l := by
  induction l with
  | nil => simp [sortByKeyNum]
  | cons e es ih =>
    simp [sortByKeyNum, mem_insertByNum, ih]

/-- Every value enumerated by `Object.values` comes from an entry of the
record. -/
theorem mem_jsObjectValues {d : Day} {es : List (String × Day)}
    (hd : d ∈ jsObjectValues es) : ∃ e ∈ es, e.2 = d := by
  rw [jsObjectValues] at hd
  obtain ⟨e, he, hde⟩ := List.mem_map.mp hd
  rcases List.mem_append.mp he with h1 | h2
  · have h3 := (mem_sortByKeyNum _ _).mp h1
    exact ⟨e, (List.mem_filter.mp h3).1, hde⟩
  · exact ⟨e, (List.mem_filter.mp h2).1, hde⟩

/-- When no key is a canonical array index, `Object.values` enumerates the
values in insertion order. -/
theorem jsObjectValues_no_index (es : List (String × Day))
    (h : ∀ e ∈ es, isArrayIndexKey e.1 = false) :
    jsObjectValues es = es.map Prod.snd := by
  rw [jsObjectValues]
  have h1 : es.filter (fun e => isArrayIndexKey e.1) = [] :=
    List.filter_eq_nil_iff.mpr (by intro e he; simp [h e he])
  have h2 : es.filter (fun e => !isArrayIndexKey e.1) = es :=
    List.filter_eq_self.mpr (by intro e he; simp [h e he])
  rw [h1, h2]
  rfl

/-- Claim C9: for every input meal list in which every title is Brunch,
Lunch or Dinner (as `parseAndFilterMeals` guarantees), every `Day` produced
by `groupMealsByDay` has at least one slot set — a `Day` with neither slot
is never constructed.  (At most one meal per slot is structural: the slots
are single optional fields.) -/
theorem groupMealsByDay_day_has_slot (meals : List Meal)
    (h : ∀ m ∈ meals, m.title = "Brunch" ∨ m.title = "Lunch" ∨ m.title = "Dinner") :
    ∀ d ∈ groupMealsByDay meals, d.lunch.isSome = true ∨ d.dinner.isSome = true := by
  intro d hd
  rw [groupMealsByDay] at hd
  obtain ⟨e, he, hde⟩ := mem_jsObjectValues hd
  obtain ⟨hkeys, hent⟩ := groupFold_inv meals
  obtain ⟨hsd, hlu, hdi⟩ := hent e he
  have hkey : e.1 ∈ meals.map (fun m => m.short_date) := by
    rw [← mem_firstOccur, ← hkeys]
    exact List.mem_map.mpr ⟨e, he, rfl⟩
  obtain ⟨m0, hm0, hm0d⟩ := List.mem_map.mp hkey
  have hlunchcase : isLunchTitle m0.title = true → d.lunch.isSome = true := by
    intro hl
    have hmem : m0 ∈ meals.filter
        (fun m => m.short_date == e.1 && isLunchTitle m.title) :=
      List.mem_filter.mpr ⟨hm0, by simp [hm0d, hl]⟩
    have hne := List.ne_nil_of_mem hmem
    rw [← hde, hlu, lastLunch]
    exact List.getLast?_isSome.mpr hne
  have hdinnercase : isDinnerTitle m0.title = true → d.dinner.isSome = true := by
    intro hl
    have hmem : m0 ∈ meals.filter
        (fun m => m.short_date == e.1 && isDinnerTitle m.title) :=
      List.mem_filter.mpr ⟨hm0, by simp [hm0d, hl]⟩
    have hne := List.ne_nil_of_mem hmem
    rw [← hde, hdi, lastDinner]
    exact List.getLast?_isSome.mpr hne
  rcases h m0 hm0 with ht | ht | ht
  · exact Or.inl (hlunchcase (by simp [isLunchTitle, ht]))
  · exact Or.inl (hlunchcase (by simp [isLunchTitle, ht]))
  · exact Or.inr (hdinnercase (by simp [isDinnerTitle, ht]))

/-- Witness for `groupMealsByDay_day_has_slot` at the concrete day produced
from a single Lunch meal. -/
theorem groupMealsByDay_day_has_slot_witness :
    (Day.mk "Mon 3/4"
        (some (Meal.mk "Lunch" LDT.invalidDT LDT.invalidDT "" "Mon 3/4" ["Pizza"]))
        none).lunch.isSome = true
      ∨ (Day.mk "Mon 3/4"
        (some (Meal.mk "Lunch" LDT.invalidDT LDT.invalidDT "" "Mon 3/4" ["Pizza"]))
        none).dinner.isSome = true :=
  groupMealsByDay_day_has_slot
    [{ title := "Lunch", startdate := LDT.invalidDT, enddate := LDT.invalidDT,
       short_time := "", short_date := "Mon 3/4", items := ["Pizza"] }]
    (by intro m hm; simp at hm; subst hm; simp)
    _ (by decide)

/-- Claim C7 (counterexample): the `days` record is a JavaScript object, and
`Object.values` enumerates canonical array-index keys first in ascending
numeric order, before insertion order applies.  With day labels `"2"` then
`"1"`, the output order is `["1", "2"]`, not the first-occurrence order
`["2", "1"]`. -/
theorem groupMealsByDay_order_counterexample :
    (groupMealsByDay
          [{ title := "Lunch", startdate := LDT.invalidDT, enddate := LDT.invalidDT,
             short_time := "", short_date := "2", items := ["x"] },
           { title := "Lunch", startdate := LDT.invalidDT, enddate := LDT.invalidDT,
             short_time := "", short_date := "1", items := ["x"] }]).map
        (fun d => d.short_date) = ["1", "2"]
      ∧ firstOccur
          (([{ title := "Lunch", startdate := LDT.invalidDT, enddate := LDT.invalidDT,
               short_time := "", short_date := "2", items := ["x"] },
             { title := "Lunch", startdate := LDT.invalidDT, enddate := LDT.invalidDT,
               short_time := "", short_date := "1", items := ["x"] }] : List Meal).map
            (fun m => m.short_date)) = ["2", "1"]
      ∧ (["1", "2"] : List String) ≠ ["2", "1"] := by
  refine ⟨by decide, by decide, by decide⟩

/-- Claim C7 (amended): `groupMealsByDay` assigns each meal titled Brunch or
Lunch to the lunch slot and each meal titled Dinner to the dinner slot of
the `Day` keyed by its label, a later meal in iteration order overwriting an
earlier one in the same slot (each slot holds the LAST matching meal, not an
error); and, provided no day label is a canonical array-index string (true
of every label the date formatter produces, e.g. `"Mon 3/4"`), the output
`Day` list is ordered by first occurrence of each label in the input.  With
all-numeric labels, JavaScript object key ordering would enumerate them
first in ascending numeric order instead (see the counterexample). -/
theorem groupMealsByDay_amended (meals : List Meal)
    (hk : ∀ m ∈ meals, isArrayIndexKey m.short_date = false) :
    (groupMealsByDay meals).map (fun d => d.short_date)
        = firstOccur (meals.map (fun m => m.short_date))
      ∧ ∀ d ∈ groupMealsByDay meals,
          d.lunch = lastLunch meals d.short_date
            ∧ d.dinner = lastDinner meals d.short_date := by
  obtain ⟨hkeys, hent⟩ := groupFold_inv meals
  have hnoidx : ∀ e ∈ meals.foldl groupStep [], isArrayIndexKey e.1 = false := by
    intro e he
    have hkey : e.1 ∈ meals.map (fun m => m.short_date) := by
      rw [← mem_firstOccur, ← hkeys]
      exact List.mem_map.mpr ⟨e, he, rfl⟩
    obtain ⟨m0, hm0, hm0d⟩ := List.mem_map.mp hkey
    rw [← hm0d]
    exact hk m0 hm0
  have hjs : groupMealsByDay meals = (meals.foldl groupStep []).map Prod.snd := by
    rw [groupMealsByDay]
    exact jsObjectValues_no_index _ hnoidx
  constructor
  · rw [hjs, List.map_map]
    calc (meals.foldl groupStep []).map ((fun d => d.short_date) ∘ Prod.snd)
        = (meals.foldl groupStep []).map Prod.fst :=
          List.map_congr_left (fun e he => (hent e he).1)
      _ = firstOccur (meals.map (fun m => m.short_date)) := hkeys
  · intro d hd
    rw [hjs] at hd
    obtain ⟨e, he, hde⟩ := List.mem_map.mp hd
    obtain ⟨hsd, hlu, hdi⟩ := hent e he
    subst hde
    exact ⟨by rw [hlu, hsd], by rw [hdi, hsd]⟩

/-- Witness for `groupMealsByDay_amended` on concrete non-numeric labels:
the second Brunch overwrites the lunch slot of the same day and labels come
out in first-occurrence order. -/
theorem groupMealsByDay_amended_witness :
    (groupMealsByDay
          [{ title := "Lunch", startdate := LDT.invalidDT, enddate := LDT.invalidDT,
             short_time := "", short_date := "Mon 3/4", items := ["x"] },
           { title := "Brunch", startdate := LDT.invalidDT, enddate := LDT.invalidDT,
             short_time := "", short_date := "Mon 3/4", items := ["y"] }]).map
        (fun d => d.short_date) = ["Mon 3/4"]
      ∧ ∀ d ∈ groupMealsByDay
          [{ title := "Lunch", startdate := LDT.invalidDT, enddate := LDT.invalidDT,
             short_time := "", short_date := "Mon 3/4", items := ["x"] },
           { title := "Brunch", startdate := LDT.invalidDT, enddate := LDT.invalidDT,
             short_time := "", short_date := "Mon 3/4", items := ["y"] }],
          d.lunch = lastLunch
              [{ title := "Lunch", startdate := LDT.invalidDT, enddate := LDT.invalidDT,
                 short_time := "", short_date := "Mon 3/4", items := ["x"] },
               { title := "Brunch", startdate := LDT.invalidDT, enddate := LDT.invalidDT,
                 short_time := "", short_date := "Mon 3/4", items := ["y"] }] d.short_date
            ∧ d.dinner = lastDinner
              [{ title := "Lunch", startdate := LDT.invalidDT, enddate := LDT.invalidDT,
                 short_time := "", short_date := "Mon 3/4", items := ["x"] },
               { title := "Brunch", startdate := LDT.invalidDT, enddate := LDT.invalidDT,
                 short_time := "", short_date := "Mon 3/4", items := ["y"] }] d.short_date := by
  have h := groupMealsByDay_amended
    [{ title := "Lunch", startdate := LDT.invalidDT, enddate := LDT.invalidDT,
       short_time := "", short_date := "Mon 3/4", items := ["x"] },
     { title := "Brunch", startdate := LDT.invalidDT, enddate := LDT.invalidDT,
       short_time := "", short_date := "Mon 3/4", items := ["y"] }]
    (by
      intro m hm
      rcases List.mem_cons.mp hm with h | hm2
      · subst h; decide
      · rcases List.mem_cons.mp hm2 with h | hm3
        · subst h; decide
        · exact absurd hm3 (List.not_mem_nil m))
  exact ⟨by rw [h.1]; decide, h.2⟩
